import Mathlib

/-!
# CrimeScrape core: shallow embedding and verification

This file embeds the core of the CrimeScrape API (the response merger in
`lib/basesearch.py` and the cache / in-flight-registry / orchestration logic
in `crimescrape.py`) as executable Lean definitions, and proves or refutes
the specification's claims about them.

JSON-like Python values are modelled by `JVal`; Python `dict`s are modelled
as insertion-ordered association lists with unique keys (the semantics of
Python 3.7+ dicts).  Machine-level details that the claims do not touch
(hash randomisation, float imprecision in timestamps) are noted where they
are abstracted.
-/

set_option maxHeartbeats 1000000

namespace CrimeScrape

/-- A JSON-like Python value: a string, a list, or a dict.  Dicts are
insertion-ordered association lists (Python 3.7+ semantics); assignment to
an existing key keeps its position, assignment to a new key appends. -/
inductive JVal where
  | jstr (s : String)
  | jlist (xs : List JVal)
  | jdict (entries : List (String × JVal))

/-- The entry list of a Python dict. -/
abbrev Entries := List (String × JVal)

mutual

/-- Structural (value) equality test on `JVal`, Python's `==`. -/
def beqV : JVal → JVal → Bool
  | .jstr a, .jstr b => a = b
  | .jlist xs, .jlist ys => beqL xs ys
  | .jdict xs, .jdict ys => beqD xs ys
  | _, _ => false
termination_by structural a _ => a

/-- Value equality on lists of `JVal`. -/
def beqL : List JVal → List JVal → Bool
  | [], [] => true
  | x :: xs, y :: ys => beqV x y && beqL xs ys
  | _, _ => false
termination_by structural xs _ => xs

/-- Value equality on dict entry lists. -/
def beqD : Entries → Entries → Bool
  | [], [] => true
  | (k1, v1) :: xs, (k2, v2) :: ys => k1 = k2 && beqV v1 v2 && beqD xs ys
  | _, _ => false
termination_by structural xs _ => xs

end

mutual

theorem beqV_iff : ∀ a b : JVal, beqV a b = true ↔ a = b
  | .jstr a, .jstr b => by simp [beqV]
  | .jstr _, .jlist _ => by simp [beqV]
  | .jstr _, .jdict _ => by simp [beqV]
  | .jlist _, .jstr _ => by simp [beqV]
  | .jlist xs, .jlist ys => by rw [beqV, beqL_iff xs ys]; simp
  | .jlist _, .jdict _ => by simp [beqV]
  | .jdict _, .jstr _ => by simp [beqV]
  | .jdict _, .jlist _ => by simp [beqV]
  | .jdict xs, .jdict ys => by rw [beqV, beqD_iff xs ys]; simp
termination_by a _ => (sizeOf a, 0)

theorem beqL_iff : ∀ xs ys : List JVal, beqL xs ys = true ↔ xs = ys
  | [], [] => by simp [beqL]
  | [], _ :: _ => by simp [beqL]
  | _ :: _, [] => by simp [beqL]
  | x :: xs, y :: ys => by
      rw [beqL, Bool.and_eq_true, beqV_iff x y, beqL_iff xs ys]
      simp
termination_by xs _ => (sizeOf xs, 0)

theorem beqD_iff : ∀ xs ys : Entries, beqD xs ys = true ↔ xs = ys
  | [], [] => by simp [beqD]
  | [], _ :: _ => by simp [beqD]
  | _ :: _, [] => by simp [beqD]
  | (k1, v1) :: xs, (k2, v2) :: ys => by
      rw [beqD, Bool.and_eq_true, Bool.and_eq_true, beqV_iff v1 v2, beqD_iff xs ys]
      simp [Prod.ext_iff, and_assoc]
termination_by xs _ => (sizeOf xs, 0)

end

instance : DecidableEq JVal := fun a b => decidable_of_iff _ (beqV_iff a b)

/-- `BaseSearch.RISK_LEVELS` from `lib/basesearch.py`, in ascending severity. -/
def RISK_LEVELS : List String := ["Low", "Medium", "High", "Dangerous"]

/-- `RISK_LEVELS.index(r)`.  Python raises `ValueError` when `r` is not a
member; the model returns the list length there, and is only relied upon for
valid risk strings (every claim restricts risks to `RISK_LEVELS`). -/
def riskIndex (s : String) : Nat := RISK_LEVELS.indexOf s

/-- Severity index of a risk value.  In Python the value under a `risk` key
is a string for all well-formed data; anything else makes
`RISK_LEVELS.index` raise, which the claims never exercise. -/
def riskIndexV : JVal → Nat
  | .jstr s => riskIndex s
  | _ => RISK_LEVELS.length

/-- `max(d1[key], value, key=lambda r: BaseSearch.RISK_LEVELS.index(r))`:
Python's two-argument `max` returns the second argument only when its key is
strictly greater, so ties keep the first argument. -/
def riskMaxV (v1 v2 : JVal) : JVal :=
  if riskIndexV v1 < riskIndexV v2 then v2 else v1

/-- The loop of `_preserve_order_dedup` in `BaseSearch.merge_responses`:
`seen` collects the values already kept; a value already seen is dropped,
otherwise it is kept and added to `seen`.  The Python `set` is modelled by a
list queried through value equality. -/
def dedupGo (seen : List JVal) : List JVal → List JVal
  | [] => []
  | x :: xs => if x ∈ seen then dedupGo seen xs else x :: dedupGo (x :: seen) xs

/-- `_preserve_order_dedup(items)`: remove duplicates while preserving
insertion order (first occurrence wins, comparison by value equality). -/
def preserve_order_dedup (items : List JVal) : List JVal :=
  dedupGo [] items

mutual

/-- The per-key collision rule of `merge_recursive` in
`BaseSearch.merge_responses`, for a key present in both dicts: nested dicts
merge recursively, lists concatenate and deduplicate, the `risk` key keeps
the higher severity, and anything else is overwritten by the later value. -/
def mergeVal (key : String) (v1 v2 : JVal) : JVal :=
  match v1, v2 with
  | .jdict e1, .jdict e2 => .jdict (mergeEntries e1 e2)
  | .jlist l1, .jlist l2 => .jlist (preserve_order_dedup (l1 ++ l2))
  | w1, w2 => if key = "risk" then riskMaxV w1 w2 else w2
termination_by (sizeOf v2, 0)

/-- One iteration of the `for key, value in d2.items()` loop of
`merge_recursive`: `d1[key]` is combined with `value` when `key` is already
present (keeping its position, as Python dict assignment does), and the pair
is appended otherwise. -/
def setKey (d : Entries) (key : String) (v : JVal) : Entries :=
  match d with
  | [] => [(key, v)]
  | (k, w) :: rest =>
      if k = key then (k, mergeVal key w v) :: rest else (k, w) :: setKey rest key v
termination_by (sizeOf v + 1, sizeOf d)

/-- `merge_recursive(d1, d2)` as a function of dict values: fold every entry
of `d2` into `d1`. -/
def mergeEntries (d1 : Entries) : Entries → Entries
  | [] => d1
  | (k, v) :: rest => mergeEntries (setKey d1 k v) rest
termination_by d2 => (sizeOf d2, 0)

end

/-- `BaseSearch.merge_responses(responses)`: start from the empty dict and
left-fold `merge_recursive` over the inputs.  The function's value semantics
is modelled here; the aliasing/mutation behaviour of the Python original is
modelled separately by the heap semantics below. -/
def merge_responses (responses : List Entries) : Entries :=
  responses.foldl mergeEntries []

/-- Keys of a dict, in order. -/
def keys (d : Entries) : List String := d.map Prod.fst

/-- `d[k]` lookup returning the first (for well-formed dicts, only)
binding of `k`. -/
def lookupKey (d : Entries) (k : String) : Option JVal :=
  match d with
  | [] => none
  | (k', v) :: rest => if k' = k then some v else lookupKey rest k

/-- The `charges` argument of `gen_response`, typed `list[str] | str` in
Python. -/
inductive ChargesArg where
  | one (s : String)
  | many (l : List String)

/-- `BaseSearch.gen_response(risk, source, notice_id, charges)`: wraps a
plain-string `charges` into a one-element list, raises `ValueError`
(modelled as `Except.error` carrying the message) when `risk` is not a
member of `RISK_LEVELS`, and otherwise builds the response dict. -/
def gen_response (risk source notice_id : String) (charges : ChargesArg) :
    Except String Entries :=
  let charges' : List String :=
    match charges with
    | .one s => [s]
    | .many l => l
  if risk ∉ RISK_LEVELS then
    .error ("The supplied risk is invalid: " ++ risk ++ ".\nPlease use one of these: "
      ++ String.intercalate ", " RISK_LEVELS ++ ".")
  else
    .ok [("risk", .jstr risk),
         ("notices", .jdict [(source, .jdict [("id", .jstr notice_id),
                                              ("charges", .jlist (charges'.map .jstr))])])]

/-! ## Cache model (`store_cache` / `load_cache` in `crimescrape.py`) -/

/-- `CACHE_MAX_DAYS` in `crimescrape.py`. -/
def CACHE_MAX_DAYS : Int := 5

/-- The JSON object a cache file holds: `{"timestamp": ..., "data": ...}`.
JSON serialisation is modelled as exact for the JSON-representable values
the system stores. -/
structure CacheFile where
  timestamp : Int
  data : List JVal
  deriving DecidableEq

/-- `int((time.time() - timestamp) / 86400)`: float division followed by
`int()` truncates toward zero. -/
def pyDayTrunc (elapsed : Int) : Int :=
  if 0 ≤ elapsed then ((elapsed.toNat / 86400 : Nat) : Int)
  else -(((-elapsed).toNat / 86400 : Nat) : Int)

/-- `load_cache(filename)` given the parsed content of the cache file
(`none` covers both a missing file and a deserialization error, which the
blanket `except` turns into `None`) and the current time.  Returns the
served data (or `none`) and whether the stale file was deleted. -/
def load_cache_file (file : Option CacheFile) (now : Int) :
    Option (List JVal) × Bool :=
  match file with
  | none => (none, false)
  | some c =>
      let days_since := pyDayTrunc (now - c.timestamp)
      if days_since > CACHE_MAX_DAYS then (none, true)
      else (some c.data, false)

/-- The cache directory, keyed by cache filename. -/
def CacheDir := String → Option CacheFile

/-- A successful `store_cache(filename, data)`: writes
`{"timestamp": int(time.time()), "data": data}` under `filename`. -/
def store_cache (dir : CacheDir) (filename : String) (data : List JVal)
    (now : Int) : CacheDir :=
  fun k => if k = filename then some ⟨now, data⟩ else dir k

/-- Removing a cache file (`os.remove(cache_path)`). -/
def remove_file (dir : CacheDir) (filename : String) : CacheDir :=
  fun k => if k = filename then none else dir k

/-! ## Orchestrator model (`execute_search` in `crimescrape.py`) -/

/-- Python truthiness of a `JVal` (`if result:`): empty strings, lists and
dicts are falsy. -/
def truthy : JVal → Bool
  | .jstr s => !(s == "")
  | .jlist xs => !xs.isEmpty
  | .jdict es => !es.isEmpty

/-- One `(source, method)` unit of work submitted to the thread pool.
`completed` is membership in the `done` set of `concurrent.futures.wait`
(finished within the timeout); `outcome` is what `future.result()` yields:
a returned value (`Option` since a source may return `None`), or a raised
exception (`InvalidResponseError`, `CaptchaError` and every other
`Exception` behave identically under the blanket `except`). -/
structure STask where
  completed : Bool
  outcome : Except Unit (Option JVal)

/-- `execute_search(sources, search_methods, results, ...)` observed through
the `results` list it appends to: completed futures whose `result()` is
truthy are appended in processing order; a raised exception is caught and
logged; timed-out futures are logged and cancelled, contributing nothing. -/
def execute_search (results : List JVal) (tasks : List STask) : List JVal :=
  tasks.foldl
    (fun acc t =>
      if t.completed then
        match t.outcome with
        | .ok (some v) => if truthy v then acc ++ [v] else acc
        | .ok none => acc
        | .error _ => acc
      else acc)
    results

/-- Stated from the claim's words, for comparison with `execute_search`:
"the collected results are exactly the non-empty values returned by the
units that completed successfully within the timeout". -/
def successfulResults (tasks : List STask) : List JVal :=
  tasks.filterMap fun t =>
    match t.completed, t.outcome with
    | true, .ok (some v) => if truthy v then some v else none
    | _, _ => none

/-! ## In-flight registry and `perform_search` (`crimescrape.py`) -/

/-- The shared state `perform_search` manipulates: the `CURRENTLY_RUNNING`
list and the cache directory. -/
structure SearchState where
  running : List String
  cacheDir : CacheDir

/-- `RunningSearches.add_running`: appends under the lock. -/
def add_running (st : SearchState) (fp : String) : SearchState :=
  { st with running := st.running ++ [fp] }

/-- `RunningSearches.remove_running`: `list.remove` deletes the first
occurrence (it raises if absent; every use in `perform_search` follows a
matching `add_running`, so the entry is present). -/
def remove_running (st : SearchState) (fp : String) : SearchState :=
  { st with running := st.running.erase fp }

/-- `gen_results(status, data)` from `crimescrape.py`. -/
def gen_results (status : String) (data : List JVal) : Entries :=
  if status ∈ ["fresh", "cached", "error"] then
    [("status", .jstr status), ("data", .jlist data)]
  else
    [("status", .jstr "error")]

/-- How the `store_cache` call inside `perform_search` can go: a successful
write, an `IOError` (caught, logged, returns `False`), or an uncaught
exception such as `TypeError` from `json.dumps` on unserialisable data. -/
inductive StoreOutcome where
  | ok
  | ioError
  | raised

/-- What `perform_search` produces: a returned response, or an exception
propagating out of it. -/
inductive PSOutcome where
  | ret (response : Entries)
  | exn

/-- The tail of `perform_search` after the cache check has fallen through:
run `execute_search` (whose behaviour, including a possible raised
exception, is `execOutcome`), store the results when caching is enabled,
then `remove_running` and return the fresh response.  An exception from
`execute_search` or from `store_cache` propagates before `remove_running`
is reached — the source has no `try/finally`. -/
def run_fresh_search (fp : String) (useCache : Bool) (now : Int)
    (execOutcome : Except Unit (List JVal)) (storeOutcome : StoreOutcome)
    (st2 : SearchState) : PSOutcome × SearchState :=
  match execOutcome with
  | .error _ => (.exn, st2)
  | .ok results =>
      if useCache then
        match storeOutcome with
        | .raised => (.exn, st2)
        | .ok =>
            let st3 := { st2 with cacheDir := store_cache st2.cacheDir fp results now }
            (.ret (gen_results "fresh" results), remove_running st3 fp)
        | .ioError =>
            (.ret (gen_results "fresh" results), remove_running st2 fp)
      else
        (.ret (gen_results "fresh" results), remove_running st2 fp)

/-- The `if cache:` dispatch of `perform_search`: a truthy (non-empty)
loaded list is returned as `"cached"` after `remove_running`; `None` or an
empty list falls through to the fresh search. -/
def cached_or_fresh (fp : String) (useCache : Bool) (now : Int)
    (execOutcome : Except Unit (List JVal)) (storeOutcome : StoreOutcome)
    (dataOpt : Option (List JVal)) (st2 : SearchState) :
    PSOutcome × SearchState :=
  match dataOpt with
  | some cache =>
      if cache.isEmpty then
        -- `if cache:` is false for an empty list: fall through to a fresh search.
        run_fresh_search fp useCache now execOutcome storeOutcome st2
      else
        (.ret (gen_results "cached" cache), remove_running st2 fp)
  | none => run_fresh_search fp useCache now execOutcome storeOutcome st2

/-- `perform_search` from the point where the spin-wait has finished, as a
function of the query fingerprint, the `USE_CACHE` flag, the current time,
and the outcomes of its two effectful calls: `execOutcome` is what
`execute_search` does (`.ok results` for a normal run filling `results`,
`.error ()` when it raises, e.g. `ThreadPoolExecutor(max_workers=0)` raising
`ValueError`), `storeOutcome` is how `store_cache` behaves.  Note the source
has no `try/finally` around the body: `remove_running` is only reached on
the two normal return paths. -/
def perform_search (fp : String) (useCache : Bool) (now : Int)
    (execOutcome : Except Unit (List JVal)) (storeOutcome : StoreOutcome)
    (st : SearchState) : PSOutcome × SearchState :=
  let st1 := add_running st fp
  let afterCache :
      (Option (List JVal)) × SearchState :=
    if useCache then
      let r := load_cache_file (st1.cacheDir fp) now
      let st2 := if r.2 then { st1 with cacheDir := remove_file st1.cacheDir fp } else st1
      (r.1, st2)
    else (none, st1)
  cached_or_fresh fp useCache now execOutcome storeOutcome afterCache.1 afterCache.2

/-! ## Heap semantics of `merge_responses`

`merge_recursive` mutates its first argument in place (`d1[key] = ...`) and
dict assignment of a missing key stores a reference, so the accumulator of
`merge_responses` aliases sub-objects of the inputs.  To reason about what
happens to the *input* objects, this section models the relevant Python
object graph explicitly: objects live on a heap and dict entries hold
addresses.  Lists in this data model are the `charges` lists, whose elements
are strings (unhashable elements would make `_preserve_order_dedup` raise),
so list objects carry their string elements directly. -/

/-- A Python object on the heap. -/
inductive PyObj where
  | pstr (s : String)
  | plist (xs : List String)
  | pdict (entries : List (String × Nat))
  deriving DecidableEq

/-- The heap: the object at address `a` is the `a`-th entry. -/
abbrev Heap := List PyObj

/-- Dereference an address (total; reads of unallocated addresses do not
occur in the runs modelled here). -/
def heapGet (h : Heap) (a : Nat) : PyObj := h.getD a (.pstr "")

/-- Overwrite the object at an address. -/
def heapSet (h : Heap) (a : Nat) (o : PyObj) : Heap := h.set a o

/-- Python dict assignment `d[k] = a` on an entry list: an existing key
keeps its position, a new key is appended. -/
def dictAssign (entries : List (String × Nat)) (k : String) (a : Nat) :
    List (String × Nat) :=
  match entries with
  | [] => [(k, a)]
  | (k', a') :: rest =>
      if k' = k then (k', a) :: rest else (k', a') :: dictAssign rest k a

/-- Dict lookup on an entry list of addresses. -/
def dictFind (entries : List (String × Nat)) (k : String) : Option Nat :=
  match entries with
  | [] => none
  | (k', a') :: rest => if k' = k then some a' else dictFind rest k

/-- `_preserve_order_dedup` on a list of strings (the shape of `charges`
lists). -/
def dedupStr (seen : List String) : List String → List String
  | [] => []
  | x :: xs => if x ∈ seen then dedupStr seen xs else x :: dedupStr (x :: seen) xs

/-- Severity index of a heap object under a `risk` key (a string in all
well-formed data; `RISK_LEVELS.index` raises on anything else). -/
def riskIndexObj : PyObj → Nat
  | .pstr s => riskIndex s
  | _ => RISK_LEVELS.length

/-- The `for key, value in d2.items()` loop of `merge_recursive` run
against the heap: `a1` is the address of `d1`, `pending` the remaining
entries of `d2`.  `d1` is re-read from the heap on every iteration, exactly
as the Python loop observes its own mutations.  The `fuel` bounds the
nesting depth; every run in this file uses ample fuel. -/
def mergeStepH : Nat → Heap → Nat → List (String × Nat) → Heap
  | _, h, _, [] => h
  | 0, h, _, _ :: _ => h
  | fuel + 1, h, a1, (key, va2) :: rest =>
      match heapGet h a1 with
      | .pdict e1 =>
          match dictFind e1 key with
          | some va1 =>
              match heapGet h va1, heapGet h va2 with
              | .pdict _, .pdict e2' =>
                  -- both dicts: recurse, mutating the object at `va1`
                  mergeStepH fuel (mergeStepH fuel h va1 e2') a1 rest
              | .plist l1, .plist l2 =>
                  -- both lists: allocate the deduplicated concatenation
                  let newAddr := h.length
                  let h1 := h ++ [.plist (dedupStr [] (l1 ++ l2))]
                  mergeStepH fuel (heapSet h1 a1 (.pdict (dictAssign e1 key newAddr))) a1 rest
              | o1, o2 =>
                  if key = "risk" then
                    let winner := if riskIndexObj o1 < riskIndexObj o2 then va2 else va1
                    mergeStepH fuel (heapSet h a1 (.pdict (dictAssign e1 key winner))) a1 rest
                  else
                    mergeStepH fuel (heapSet h a1 (.pdict (dictAssign e1 key va2))) a1 rest
          | none =>
              mergeStepH fuel (heapSet h a1 (.pdict (dictAssign e1 key va2))) a1 rest
      | _ => h

/-- `merge_responses(responses)` against the heap: allocate the fresh
`merged_dict = {}` and fold `merge_recursive(merged_dict, d)` over the
input addresses.  Returns the final heap and the result's address. -/
def merge_responses_heap (fuel : Nat) (h : Heap) (addrs : List Nat) :
    Heap × Nat :=
  let mergedAddr := h.length
  let h0 := h ++ [.pdict []]
  (addrs.foldl
    (fun hh a2 =>
      match heapGet hh a2 with
      | .pdict e2 => mergeStepH fuel hh mergedAddr e2
      | _ => hh)
    h0, mergedAddr)

/-! ## Well-formedness of the PartialResult data model -/

/-- Dicts whose values satisfy a per-key predicate and whose keys are
unique (as Python dict keys are). -/
def GoodDict (P : String → JVal → Prop) (d : Entries) : Prop :=
  (keys d).Nodup ∧ ∀ p ∈ d, P p.1 p.2

/-- A well-formed Notice value, as `gen_response` builds it:
`{"id": <string>, "charges": <list of strings>}`. -/
def WFNotice (v : JVal) : Prop :=
  ∃ i cs, v = .jdict [("id", .jstr i), ("charges", .jlist cs)] ∧
    ∀ c ∈ cs, ∃ s, c = .jstr s

/-- Value predicate for a notices mapping: every value is a well-formed
Notice, whatever its source key. -/
def PNotice : String → JVal → Prop := fun _ v => WFNotice v

/-- Value predicate for the top level of a PartialResult: `risk` holds a
valid risk string, `notices` holds a well-formed notices dict, and no other
keys occur. -/
def PTop : String → JVal → Prop := fun k v =>
  if k = "risk" then ∃ s, v = .jstr s ∧ s ∈ RISK_LEVELS
  else if k = "notices" then ∃ ns, v = .jdict ns ∧ GoodDict PNotice ns
  else False

/-- A well-formed PartialResult dict, the shape `gen_response` produces:
`{"risk": <valid risk>, "notices": {sourceKey: <notice>}}`. -/
def WFRes (e : Entries) : Prop :=
  ∃ r ns, e = [("risk", .jstr r), ("notices", .jdict ns)] ∧
    r ∈ RISK_LEVELS ∧ GoodDict PNotice ns

/-- `max` of two risk strings by severity index, ties keeping the first
(the string-level content of `riskMaxV`). -/
def maxRiskStr (a b : String) : String :=
  if riskIndex a < riskIndex b then b else a

/-- The risk string stored in a PartialResult dict. -/
def riskOf (e : Entries) : String :=
  match lookupKey e "risk" with
  | some (.jstr s) => s
  | _ => ""

/-- Deduplication as the claim words it: keep each element's first
occurrence, dropping later duplicates (value equality). -/
def dedupFirst (l : List JVal) : List JVal :=
  l.foldl (fun acc x => if x ∈ acc then acc else acc ++ [x]) []

/-- The `isinstance(charges, str)` wrapping at the top of `gen_response`. -/
def wrapCharges : ChargesArg → List String
  | .one s => [s]
  | .many l => l

/-! ## Lemmas about `_preserve_order_dedup` -/

theorem dedupGo_congr {s1 s2 : List JVal} (h : ∀ x, x ∈ s1 ↔ x ∈ s2) :
    ∀ l, dedupGo s1 l = dedupGo s2 l := by
  intro l
  induction l generalizing s1 s2 with
  | nil => rfl
  | cons x xs ih =>
      simp only [dedupGo]
      by_cases hx : x ∈ s1
      · rw [if_pos hx, if_pos ((h x).1 hx), ih h]
      · rw [if_neg hx, if_neg (fun hc => hx ((h x).2 hc))]
        congr 1
        apply ih
        intro y
        simp [h y]

theorem dedupGo_append (s : List JVal) (a b : List JVal) :
    dedupGo s (a ++ b) = dedupGo s a ++ dedupGo (a ++ s) b := by
  induction a generalizing s with
  | nil => rfl
  | cons x a' ih =>
      by_cases hx : x ∈ s
      · have l1 : dedupGo s ((x :: a') ++ b) = dedupGo s (a' ++ b) := by
          simp [dedupGo, hx]
        have l2 : dedupGo s (x :: a') = dedupGo s a' := by
          simp [dedupGo, hx]
        rw [l1, l2, ih]
        congr 1
        apply dedupGo_congr
        intro y
        simp only [List.cons_append, List.mem_cons, List.mem_append]
        constructor
        · tauto
        · rintro (rfl | h1 | h2)
          · exact Or.inr hx
          · exact Or.inl h1
          · exact Or.inr h2
      · have l1 : dedupGo s ((x :: a') ++ b) = x :: dedupGo (x :: s) (a' ++ b) := by
          simp [dedupGo, hx]
        have l2 : dedupGo s (x :: a') = x :: dedupGo (x :: s) a' := by
          simp [dedupGo, hx]
        rw [l1, l2, ih, List.cons_append, List.cons_append]
        congr 2
        apply dedupGo_congr
        intro y
        simp only [List.cons_append, List.mem_cons, List.mem_append]
        tauto

theorem dedupGo_dedupGo_left (s : List JVal) (a b : List JVal) :
    dedupGo s (dedupGo s a ++ b) = dedupGo s (a ++ b) := by
  induction a generalizing s with
  | nil => rfl
  | cons x a' ih =>
      by_cases hx : x ∈ s
      · have l1 : dedupGo s (x :: a') = dedupGo s a' := by simp [dedupGo, hx]
        have l2 : dedupGo s ((x :: a') ++ b) = dedupGo s (a' ++ b) := by
          simp [dedupGo, hx]
        rw [l1, l2, ih]
      · have l1 : dedupGo s (x :: a') = x :: dedupGo (x :: s) a' := by
          simp [dedupGo, hx]
        have l2 : dedupGo s ((x :: a') ++ b) = x :: dedupGo (x :: s) (a' ++ b) := by
          simp [dedupGo, hx]
        have l3 : dedupGo s ((x :: dedupGo (x :: s) a') ++ b)
            = x :: dedupGo (x :: s) (dedupGo (x :: s) a' ++ b) := by
          simp [dedupGo, hx]
        rw [l1, l3, ih, l2]

theorem dedupGo_absorb {s t : List JVal} (hs : ∀ x ∈ s, x ∈ t) :
    ∀ m, dedupGo t (dedupGo s m) = dedupGo t m := by
  intro m
  induction m generalizing s t with
  | nil => rfl
  | cons x m' ih =>
      simp only [dedupGo]
      by_cases hxs : x ∈ s
      · rw [if_pos hxs, if_pos (hs x hxs), ih hs]
      · rw [if_neg hxs]
        by_cases hxt : x ∈ t
        · rw [dedupGo, if_pos hxt, if_pos hxt]
          apply ih
          intro y hy
          rcases List.mem_cons.1 hy with rfl | hy'
          · exact hxt
          · exact hs y hy'
        · rw [dedupGo, if_neg hxt, if_neg hxt]
          congr 1
          apply ih
          intro y hy
          rcases List.mem_cons.1 hy with rfl | hy'
          · exact List.mem_cons_self _ _
          · exact List.mem_cons_of_mem _ (hs y hy')

theorem dedup_fuse_left (a b : List JVal) :
    preserve_order_dedup (preserve_order_dedup a ++ b) =
      preserve_order_dedup (a ++ b) := by
  unfold preserve_order_dedup
  exact dedupGo_dedupGo_left [] a b

theorem dedup_fuse_right (a b : List JVal) :
    preserve_order_dedup (a ++ preserve_order_dedup b) =
      preserve_order_dedup (a ++ b) := by
  unfold preserve_order_dedup
  rw [dedupGo_append, dedupGo_append]
  congr 1
  exact dedupGo_absorb (by simp) b

theorem mem_dedupGo {x : JVal} : ∀ {s l}, x ∈ dedupGo s l ↔ x ∈ l ∧ x ∉ s := by
  intro s l
  induction l generalizing s with
  | nil => simp [dedupGo]
  | cons y l' ih =>
      simp only [dedupGo]
      by_cases hy : y ∈ s
      · rw [if_pos hy, ih]
        constructor
        · rintro ⟨h1, h2⟩
          exact ⟨List.mem_cons_of_mem _ h1, h2⟩
        · rintro ⟨h1, h2⟩
          rcases List.mem_cons.1 h1 with rfl | h1'
          · exact absurd hy h2
          · exact ⟨h1', h2⟩
      · rw [if_neg hy]
        constructor
        · intro h
          rcases List.mem_cons.1 h with rfl | h'
          · exact ⟨List.mem_cons_self _ _, hy⟩
          · rcases ih.1 h' with ⟨h1, h2⟩
            refine ⟨List.mem_cons_of_mem _ h1, fun hc => h2 (List.mem_cons_of_mem _ hc)⟩
        · rintro ⟨h1, h2⟩
          rcases List.mem_cons.1 h1 with rfl | h1'
          · exact List.mem_cons_self _ _
          · by_cases hxy : x = y
            · subst hxy; exact List.mem_cons_self _ _
            · exact List.mem_cons_of_mem _ (ih.2 ⟨h1', by simp [hxy, h2]⟩)

theorem mem_preserve_order_dedup {x : JVal} {l : List JVal} :
    x ∈ preserve_order_dedup l ↔ x ∈ l := by
  unfold preserve_order_dedup
  rw [mem_dedupGo]
  simp

/-- The source's seen-set formulation and the claim's first-occurrence
formulation compute the same list. -/
theorem preserve_order_dedup_eq_dedupFirst (l : List JVal) :
    preserve_order_dedup l = dedupFirst l := by
  have key : ∀ (l : List JVal) (acc seen : List JVal),
      (∀ x, x ∈ seen ↔ x ∈ acc) →
      acc ++ dedupGo seen l = l.foldl (fun a x => if x ∈ a then a else a ++ [x]) acc := by
    intro l
    induction l with
    | nil => intro acc seen _; simp [dedupGo]
    | cons x l' ih =>
        intro acc seen hiff
        simp only [dedupGo, List.foldl_cons]
        by_cases hx : x ∈ seen
        · rw [if_pos hx, if_pos ((hiff x).1 hx)]
          exact ih acc seen hiff
        · rw [if_neg hx, if_neg (fun hc => hx ((hiff x).2 hc))]
          have : acc ++ x :: dedupGo (x :: seen) l' = (acc ++ [x]) ++ dedupGo (x :: seen) l' := by
            simp
          rw [this]
          apply ih
          intro y
          simp [hiff y, or_comm]
  have := key l [] [] (by simp)
  simpa [preserve_order_dedup, dedupFirst] using this

/-! ## Generic lemmas about `setKey` / `mergeEntries` -/

theorem mergeEntries_nil (d : Entries) : mergeEntries d [] = d := by
  simp only [mergeEntries]

theorem mergeEntries_cons (d : Entries) (k : String) (v : JVal) (f : Entries) :
    mergeEntries d ((k, v) :: f) = mergeEntries (setKey d k v) f := by
  simp only [mergeEntries]

theorem mergeEntries_append (d : Entries) (e f : Entries) :
    mergeEntries d (e ++ f) = mergeEntries (mergeEntries d e) f := by
  induction e generalizing d with
  | nil => rw [List.nil_append, mergeEntries_nil]
  | cons p e' ih =>
      obtain ⟨k, v⟩ := p
      rw [List.cons_append, mergeEntries_cons, mergeEntries_cons, ih]

theorem setKey_of_not_mem {d : Entries} {k : String} (v : JVal)
    (h : k ∉ keys d) : setKey d k v = d ++ [(k, v)] := by
  induction d with
  | nil => simp [setKey]
  | cons p d' ih =>
      obtain ⟨k', w⟩ := p
      have hk : k' ≠ k := by
        intro hc
        exact h (by simp [keys, hc])
      rw [setKey, if_neg hk, ih (fun hc => h (by simp [keys] at hc ⊢; tauto))]
      simp

theorem mem_keys_setKey {d : Entries} {k j : String} {v : JVal} :
    j ∈ keys (setKey d k v) ↔ j ∈ keys d ∨ j = k := by
  induction d with
  | nil => simp [setKey, keys, eq_comm]
  | cons p d' ih =>
      obtain ⟨k', w⟩ := p
      by_cases hk : k' = k
      · subst hk
        rw [setKey, if_pos rfl]
        simp only [keys, List.map_cons, List.mem_cons]
        tauto
      · rw [setKey, if_neg hk]
        simp only [keys, List.map_cons, List.mem_cons] at ih ⊢
        rw [ih]
        tauto

theorem keys_setKey_of_mem {d : Entries} {k : String} (v : JVal)
    (h : k ∈ keys d) : keys (setKey d k v) = keys d := by
  induction d with
  | nil => simp [keys] at h
  | cons p d' ih =>
      obtain ⟨k', w⟩ := p
      by_cases hk : k' = k
      · subst hk
        rw [setKey, if_pos rfl]
        simp [keys]
      · rw [setKey, if_neg hk]
        have h' : k ∈ keys d' := by
          simp only [keys, List.map_cons, List.mem_cons] at h
          tauto
        simp only [keys, List.map_cons] at ih ⊢
        rw [ih h']

theorem nodup_keys_setKey {d : Entries} {k : String} (v : JVal)
    (h : (keys d).Nodup) : (keys (setKey d k v)).Nodup := by
  by_cases hm : k ∈ keys d
  · rw [keys_setKey_of_mem v hm]; exact h
  · rw [setKey_of_not_mem v hm]
    simp only [keys, List.map_append, List.map_cons, List.map_nil]
    rw [List.nodup_append]
    exact ⟨h, List.nodup_singleton k, by simp [keys] at hm ⊢; exact hm⟩

theorem nodup_keys_mergeEntries {d : Entries} (e : Entries)
    (h : (keys d).Nodup) : (keys (mergeEntries d e)).Nodup := by
  induction e generalizing d with
  | nil => rw [mergeEntries_nil]; exact h
  | cons p e' ih =>
      obtain ⟨k, v⟩ := p
      rw [mergeEntries_cons]
      exact ih (nodup_keys_setKey v h)

theorem setKey_setKey_of_ne {d : Entries} {j k : String} {u v : JVal}
    (hjk : j ≠ k) (hk : k ∈ keys d) :
    setKey (setKey d j u) k v = setKey (setKey d k v) j u := by
  induction d with
  | nil => simp [keys] at hk
  | cons p d' ih =>
      obtain ⟨k', w⟩ := p
      by_cases h1 : k' = j
      · subst h1
        have h2 : ¬ (k' = k) := hjk
        rw [setKey, if_pos rfl, setKey, if_neg h2, setKey, if_neg h2, setKey, if_pos rfl]
      · by_cases h2 : k' = k
        · subst h2
          rw [setKey, if_neg h1, setKey, if_pos rfl, setKey, if_pos rfl, setKey, if_neg h1]
        · have hk' : k ∈ keys d' := by
            simp only [keys, List.map_cons, List.mem_cons] at hk
            rcases hk with rfl | hk
            · exact absurd rfl h2
            · exact hk
          rw [setKey, if_neg h1, setKey, if_neg h2, setKey, if_neg h2, setKey, if_neg h1,
            ih hk']

theorem setKey_mergeEntries_comm {k : String} {v : JVal} :
    ∀ {e d : Entries}, k ∈ keys d → k ∉ keys e →
    setKey (mergeEntries d e) k v = mergeEntries (setKey d k v) e := by
  intro e
  induction e with
  | nil => intro d _ _; rw [mergeEntries_nil, mergeEntries_nil]
  | cons p e' ih =>
      obtain ⟨j, u⟩ := p
      intro d hkd hke
      have hjk : j ≠ k := by
        intro hc
        exact hke (by simp [keys, hc])
      have hke' : k ∉ keys e' := fun hc => hke (by simp [keys] at hc ⊢; tauto)
      rw [mergeEntries_cons, mergeEntries_cons,
        ih (mem_keys_setKey.2 (Or.inl hkd)) hke',
        setKey_setKey_of_ne hjk hkd]

/-! ## Associativity of `mergeEntries` on well-behaved dicts

The per-key combine `mergeVal k` is not associative on arbitrary values
(mixed types degrade to last-writer-wins and can force a different branch
on re-association), so associativity is established relative to a per-key
value predicate `P` that is closed under merging and on which `mergeVal`
is associative — then instantiated with the PartialResult shape. -/

theorem goodDict_cons_iff {P : String → JVal → Prop} {k : String} {w : JVal}
    {d : Entries} :
    GoodDict P ((k, w) :: d) ↔ k ∉ keys d ∧ P k w ∧ GoodDict P d := by
  unfold GoodDict
  simp only [keys, List.map_cons, List.nodup_cons, List.mem_cons]
  constructor
  · rintro ⟨⟨hk, hn⟩, hv⟩
    exact ⟨hk, hv _ (Or.inl rfl), hn, fun p hp => hv p (Or.inr hp)⟩
  · rintro ⟨hk, hw, hn, hv⟩
    exact ⟨⟨hk, hn⟩, fun p hp => by
      rcases hp with rfl | hp
      · exact hw
      · exact hv p hp⟩

theorem goodDict_setKey {P : String → JVal → Prop}
    (hP : ∀ k u v, P k u → P k v → P k (mergeVal k u v))
    {d : Entries} {k : String} {v : JVal}
    (hd : GoodDict P d) (hv : P k v) : GoodDict P (setKey d k v) := by
  induction d with
  | nil =>
      rw [setKey]
      exact goodDict_cons_iff.2 ⟨by simp [keys], hv, by simp [GoodDict, keys]⟩
  | cons p d' ih =>
      obtain ⟨k', w⟩ := p
      rcases goodDict_cons_iff.1 hd with ⟨hk', hw, hd'⟩
      by_cases hkk : k' = k
      · subst hkk
        rw [setKey, if_pos rfl]
        exact goodDict_cons_iff.2 ⟨hk', hP _ _ _ hw hv, hd'⟩
      · rw [setKey, if_neg hkk]
        refine goodDict_cons_iff.2 ⟨?_, hw, ih hd'⟩
        intro hc
        rcases mem_keys_setKey.1 hc with hc' | hc'
        · exact hk' hc'
        · exact hkk hc'

theorem goodDict_mergeEntries {P : String → JVal → Prop}
    (hP : ∀ k u v, P k u → P k v → P k (mergeVal k u v)) :
    ∀ {e d : Entries}, GoodDict P d → GoodDict P e →
      GoodDict P (mergeEntries d e) := by
  intro e
  induction e with
  | nil => intro d hd _; rw [mergeEntries_nil]; exact hd
  | cons p e' ih =>
      obtain ⟨k, v⟩ := p
      intro d hd he
      rcases goodDict_cons_iff.1 he with ⟨_, hv, he'⟩
      rw [mergeEntries_cons]
      exact ih (goodDict_setKey hP hd hv) he'

theorem setKey_setKey_same {P : String → JVal → Prop}
    (hA : ∀ k u v w, P k u → P k v → P k w →
      mergeVal k (mergeVal k u v) w = mergeVal k u (mergeVal k v w))
    {d : Entries} {k : String} {w v : JVal}
    (hd : GoodDict P d) (hw : P k w) (hv : P k v) :
    setKey (setKey d k w) k v = setKey d k (mergeVal k w v) := by
  induction d with
  | nil => simp [setKey]
  | cons p d' ih =>
      obtain ⟨k', u⟩ := p
      rcases goodDict_cons_iff.1 hd with ⟨_, hu, hd'⟩
      by_cases hkk : k' = k
      · subst hkk
        rw [setKey, if_pos rfl, setKey, if_pos rfl, setKey, if_pos rfl,
          hA _ _ _ _ hu hw hv]
      · rw [setKey, if_neg hkk, setKey, if_neg hkk, setKey, if_neg hkk, ih hd']

theorem mergeEntries_snoc_setKey {P : String → JVal → Prop}
    (hP : ∀ k u v, P k u → P k v → P k (mergeVal k u v))
    (hA : ∀ k u v w, P k u → P k v → P k w →
      mergeVal k (mergeVal k u v) w = mergeVal k u (mergeVal k v w)) :
    ∀ {e d : Entries} {k : String} {v : JVal},
      GoodDict P d → GoodDict P e → P k v →
      mergeEntries d (e ++ [(k, v)]) = mergeEntries d (setKey e k v) := by
  intro e
  induction e with
  | nil =>
      intro d k v _ _ _
      rw [List.nil_append, setKey]
  | cons p e' ih =>
      obtain ⟨j, u⟩ := p
      intro d k v hd he hv
      rcases goodDict_cons_iff.1 he with ⟨hj, hu, he'⟩
      by_cases hjk : j = k
      · subst hjk
        rw [List.cons_append, mergeEntries_cons, mergeEntries_append,
          mergeEntries_cons, mergeEntries_nil,
          setKey_mergeEntries_comm (mem_keys_setKey.2 (Or.inr rfl)) hj,
          setKey_setKey_same hA hd hu hv, setKey, if_pos rfl, mergeEntries_cons]
      · rw [List.cons_append, mergeEntries_cons,
          ih (goodDict_setKey hP hd hu) he' hv,
          setKey, if_neg hjk, mergeEntries_cons]

theorem mergeEntries_fuse {P : String → JVal → Prop}
    (hP : ∀ k u v, P k u → P k v → P k (mergeVal k u v))
    (hA : ∀ k u v w, P k u → P k v → P k w →
      mergeVal k (mergeVal k u v) w = mergeVal k u (mergeVal k v w)) :
    ∀ {f e d : Entries}, GoodDict P d → GoodDict P e → GoodDict P f →
      mergeEntries d (e ++ f) = mergeEntries d (mergeEntries e f) := by
  intro f
  induction f with
  | nil => intro e d _ _ _; rw [List.append_nil, mergeEntries_nil]
  | cons p f' ih =>
      obtain ⟨k, v⟩ := p
      intro e d hd he hf
      rcases goodDict_cons_iff.1 hf with ⟨_, hv, hf'⟩
      have step : e ++ (k, v) :: f' = (e ++ [(k, v)]) ++ f' := by simp
      rw [step, mergeEntries_append, mergeEntries_snoc_setKey hP hA hd he hv,
        ← mergeEntries_append, ih hd (goodDict_setKey hP he hv) hf',
        mergeEntries_cons]

theorem mergeEntries_assoc {P : String → JVal → Prop}
    (hP : ∀ k u v, P k u → P k v → P k (mergeVal k u v))
    (hA : ∀ k u v w, P k u → P k v → P k w →
      mergeVal k (mergeVal k u v) w = mergeVal k u (mergeVal k v w))
    {d e f : Entries} (hd : GoodDict P d) (he : GoodDict P e)
    (hf : GoodDict P f) :
    mergeEntries (mergeEntries d e) f = mergeEntries d (mergeEntries e f) := by
  rw [← mergeEntries_append, mergeEntries_fuse hP hA hd he hf]

/-! ## The merge on PartialResult shapes -/

theorem mergeVal_notices (k : String) (n1 n2 : Entries) :
    mergeVal k (.jdict n1) (.jdict n2) = .jdict (mergeEntries n1 n2) := by
  simp [mergeVal]

theorem mergeVal_risk (a b : String) :
    mergeVal "risk" (.jstr a) (.jstr b) = .jstr (maxRiskStr a b) := by
  rw [mergeVal.eq_def]
  simp only [riskMaxV, riskIndexV, maxRiskStr, apply_ite JVal.jstr, if_pos rfl,
    eq_self_iff_true, if_true]

theorem mergeVal_str_overwrite {k : String} (hk : k ≠ "risk") (a b : String) :
    mergeVal k (.jstr a) (.jstr b) = .jstr b := by
  rw [mergeVal.eq_def]
  simp [hk]

theorem mergeVal_lists (k : String) (c1 c2 : List JVal) :
    mergeVal k (.jlist c1) (.jlist c2) =
      .jlist (preserve_order_dedup (c1 ++ c2)) := by
  simp [mergeVal]

theorem mergeVal_notice_shape (sk i1 i2 : String) (c1 c2 : List JVal) :
    mergeVal sk (.jdict [("id", .jstr i1), ("charges", .jlist c1)])
      (.jdict [("id", .jstr i2), ("charges", .jlist c2)]) =
      .jdict [("id", .jstr i2),
              ("charges", .jlist (preserve_order_dedup (c1 ++ c2)))] := by
  rw [mergeVal_notices, mergeEntries_cons, mergeEntries_cons, mergeEntries_nil]
  rw [setKey, if_pos rfl, mergeVal_str_overwrite (by decide)]
  rw [setKey, if_neg (by decide), setKey, if_pos rfl, mergeVal_lists]

theorem merge_top_shape (r1 r2 : String) (n1 n2 : Entries) :
    mergeEntries [("risk", .jstr r1), ("notices", .jdict n1)]
      [("risk", .jstr r2), ("notices", .jdict n2)] =
      [("risk", .jstr (maxRiskStr r1 r2)),
       ("notices", .jdict (mergeEntries n1 n2))] := by
  rw [mergeEntries_cons, mergeEntries_cons, mergeEntries_nil]
  rw [setKey, if_pos rfl, mergeVal_risk]
  rw [setKey, if_neg (by decide), setKey, if_pos rfl, mergeVal_notices]

theorem mergeEntries_nil_top (x y : JVal) :
    mergeEntries [] [("risk", x), ("notices", y)] = [("risk", x), ("notices", y)] := by
  rw [mergeEntries_cons, mergeEntries_cons, mergeEntries_nil]
  rw [setKey, setKey, if_neg (by decide)]
  rw [setKey]

theorem maxRiskStr_cases (a b : String) :
    maxRiskStr a b = a ∨ maxRiskStr a b = b := by
  unfold maxRiskStr
  split
  · exact Or.inr rfl
  · exact Or.inl rfl

theorem maxRiskStr_mem {a b : String} (ha : a ∈ RISK_LEVELS)
    (hb : b ∈ RISK_LEVELS) : maxRiskStr a b ∈ RISK_LEVELS := by
  rcases maxRiskStr_cases a b with h | h <;> rw [h]
  · exact ha
  · exact hb

theorem maxRiskStr_assoc {a b c : String} (ha : a ∈ RISK_LEVELS)
    (hb : b ∈ RISK_LEVELS) (hc : c ∈ RISK_LEVELS) :
    maxRiskStr (maxRiskStr a b) c = maxRiskStr a (maxRiskStr b c) := by
  fin_cases ha <;> fin_cases hb <;> fin_cases hc <;> decide

theorem wfNotice_mergeVal {u v : JVal} (sk : String)
    (hu : WFNotice u) (hv : WFNotice v) : WFNotice (mergeVal sk u v) := by
  obtain ⟨i1, c1, rfl, hc1⟩ := hu
  obtain ⟨i2, c2, rfl, hc2⟩ := hv
  rw [mergeVal_notice_shape]
  refine ⟨i2, _, rfl, ?_⟩
  intro c hc
  rcases List.mem_append.1 (mem_preserve_order_dedup.1 hc) with h | h
  · exact hc1 c h
  · exact hc2 c h

theorem wfNotice_mergeVal_assoc {u v w : JVal} (sk : String)
    (hu : WFNotice u) (hv : WFNotice v) (hw : WFNotice w) :
    mergeVal sk (mergeVal sk u v) w = mergeVal sk u (mergeVal sk v w) := by
  obtain ⟨i1, c1, rfl, _⟩ := hu
  obtain ⟨i2, c2, rfl, _⟩ := hv
  obtain ⟨i3, c3, rfl, _⟩ := hw
  rw [mergeVal_notice_shape, mergeVal_notice_shape, mergeVal_notice_shape,
    mergeVal_notice_shape, dedup_fuse_left, dedup_fuse_right, List.append_assoc]

theorem pNotice_hP : ∀ k u v, PNotice k u → PNotice k v →
    PNotice k (mergeVal k u v) :=
  fun k _ _ hu hv => wfNotice_mergeVal k hu hv

theorem pNotice_hA : ∀ k u v w, PNotice k u → PNotice k v → PNotice k w →
    mergeVal k (mergeVal k u v) w = mergeVal k u (mergeVal k v w) :=
  fun k _ _ _ hu hv hw => wfNotice_mergeVal_assoc k hu hv hw

theorem pTop_hP : ∀ k u v, PTop k u → PTop k v → PTop k (mergeVal k u v) := by
  intro k u v hu hv
  unfold PTop at hu hv ⊢
  by_cases hk : k = "risk"
  · subst hk
    rw [if_pos rfl] at hu hv ⊢
    obtain ⟨a, rfl, ha⟩ := hu
    obtain ⟨b, rfl, hb⟩ := hv
    rw [mergeVal_risk]
    exact ⟨_, rfl, maxRiskStr_mem ha hb⟩
  · rw [if_neg hk] at hu hv ⊢
    by_cases hk2 : k = "notices"
    · subst hk2
      rw [if_pos rfl] at hu hv ⊢
      obtain ⟨n1, rfl, h1⟩ := hu
      obtain ⟨n2, rfl, h2⟩ := hv
      rw [mergeVal_notices]
      exact ⟨_, rfl, goodDict_mergeEntries pNotice_hP h1 h2⟩
    · rw [if_neg hk2] at hu
      exact absurd hu (by simp)

theorem pTop_hA : ∀ k u v w, PTop k u → PTop k v → PTop k w →
    mergeVal k (mergeVal k u v) w = mergeVal k u (mergeVal k v w) := by
  intro k u v w hu hv hw
  unfold PTop at hu hv hw
  by_cases hk : k = "risk"
  · subst hk
    rw [if_pos rfl] at hu hv hw
    obtain ⟨a, rfl, ha⟩ := hu
    obtain ⟨b, rfl, hb⟩ := hv
    obtain ⟨c, rfl, hc⟩ := hw
    rw [mergeVal_risk, mergeVal_risk, mergeVal_risk, mergeVal_risk,
      maxRiskStr_assoc ha hb hc]
  · rw [if_neg hk] at hu hv hw
    by_cases hk2 : k = "notices"
    · subst hk2
      rw [if_pos rfl] at hu hv hw
      obtain ⟨n1, rfl, h1⟩ := hu
      obtain ⟨n2, rfl, h2⟩ := hv
      obtain ⟨n3, rfl, h3⟩ := hw
      rw [mergeVal_notices, mergeVal_notices, mergeVal_notices, mergeVal_notices,
        mergeEntries_assoc pNotice_hP pNotice_hA h1 h2 h3]
    · rw [if_neg hk2] at hu
      exact absurd hu (by simp)

theorem wfres_goodDict {e : Entries} (h : WFRes e) : GoodDict PTop e := by
  obtain ⟨r, ns, rfl, hr, hns⟩ := h
  constructor
  · show (["risk", "notices"] : List String).Nodup
    decide
  · intro p hp
    rcases List.mem_cons.1 hp with rfl | hp'
    · exact show PTop "risk" (.jstr r) by
        unfold PTop
        rw [if_pos rfl]
        exact ⟨r, rfl, hr⟩
    · rcases List.mem_cons.1 hp' with rfl | hp''
      · exact show PTop "notices" (.jdict ns) by
          unfold PTop
          rw [if_neg (by decide), if_pos rfl]
          exact ⟨ns, rfl, hns⟩
      · simp at hp''

theorem wfres_mergeEntries {A B : Entries} (hA : WFRes A) (hB : WFRes B) :
    WFRes (mergeEntries A B) := by
  obtain ⟨r1, n1, rfl, hr1, hn1⟩ := hA
  obtain ⟨r2, n2, rfl, hr2, hn2⟩ := hB
  rw [merge_top_shape]
  exact ⟨_, _, rfl, maxRiskStr_mem hr1 hr2,
    goodDict_mergeEntries pNotice_hP hn1 hn2⟩

theorem merge_responses_two {A B : Entries} (hA : WFRes A) :
    merge_responses [A, B] = mergeEntries A B := by
  obtain ⟨r, ns, rfl, -, -⟩ := hA
  show mergeEntries (mergeEntries [] _) _ = _
  rw [mergeEntries_nil_top]

theorem merge_responses_three {A B C : Entries} (hA : WFRes A) :
    merge_responses [A, B, C] = mergeEntries (mergeEntries A B) C := by
  obtain ⟨r, ns, rfl, -, -⟩ := hA
  show mergeEntries (mergeEntries (mergeEntries [] _) _) _ = _
  rw [mergeEntries_nil_top]

/-- C1: `merge_responses` is associative on well-formed PartialResults:
merging `[A, B, C]` in one pass agrees with merging `[merge([A,B]), C]` and
with merging `[A, merge([B,C])]`. -/
theorem merge_responses_assoc (A B C : Entries)
    (hA : WFRes A) (hB : WFRes B) (hC : WFRes C) :
    merge_responses [A, B, C] = merge_responses [merge_responses [A, B], C] ∧
    merge_responses [A, B, C] = merge_responses [A, merge_responses [B, C]] := by
  have hAB : WFRes (merge_responses [A, B]) := by
    rw [merge_responses_two hA]; exact wfres_mergeEntries hA hB
  have hBC : WFRes (merge_responses [B, C]) := by
    rw [merge_responses_two hB]; exact wfres_mergeEntries hB hC
  constructor
  · rw [merge_responses_three hA, merge_responses_two hAB,
      merge_responses_two hA]
  · rw [merge_responses_three hA, merge_responses_two hA,
      merge_responses_two hB,
      mergeEntries_assoc pTop_hP pTop_hA (wfres_goodDict hA)
        (wfres_goodDict hB) (wfres_goodDict hC)]

/-- Helper to build well-formedness proofs for concrete single-notice
PartialResults. -/
theorem wfres_single (r sk i : String) (cs : List String)
    (hr : r ∈ RISK_LEVELS) :
    WFRes [("risk", .jstr r),
           ("notices", .jdict [(sk, .jdict [("id", .jstr i),
                                            ("charges", .jlist (cs.map .jstr))])])] := by
  refine ⟨r, _, rfl, hr, ?_, ?_⟩
  · show ([sk] : List String).Nodup
    simp
  · intro p hp
    rcases List.mem_singleton.1 hp with rfl
    exact ⟨i, cs.map .jstr, rfl, by
      intro c hc
      rcases List.mem_map.1 hc with ⟨s, -, rfl⟩
      exact ⟨s, rfl⟩⟩

/-- Witness for C1 at concrete inputs. -/
theorem merge_responses_assoc_witness :
    WFRes [("risk", .jstr "Low"),
           ("notices", .jdict [("fbi", .jdict [("id", .jstr "1"),
              ("charges", .jlist ([ "A", "B" ].map .jstr))])])] ∧
    (merge_responses
        [[("risk", .jstr "Low"),
          ("notices", .jdict [("fbi", .jdict [("id", .jstr "1"),
             ("charges", .jlist ([ "A", "B" ].map .jstr))])])],
         [("risk", .jstr "Dangerous"),
          ("notices", .jdict [("fbi", .jdict [("id", .jstr "2"),
             ("charges", .jlist ([ "B", "C" ].map .jstr))])])],
         [("risk", .jstr "Medium"),
          ("notices", .jdict [("euro", .jdict [("id", .jstr "3"),
             ("charges", .jlist ([ "Z" ].map .jstr))])])]] =
      merge_responses
        [merge_responses
          [[("risk", .jstr "Low"),
            ("notices", .jdict [("fbi", .jdict [("id", .jstr "1"),
               ("charges", .jlist ([ "A", "B" ].map .jstr))])])],
           [("risk", .jstr "Dangerous"),
            ("notices", .jdict [("fbi", .jdict [("id", .jstr "2"),
               ("charges", .jlist ([ "B", "C" ].map .jstr))])])]],
         [("risk", .jstr "Medium"),
          ("notices", .jdict [("euro", .jdict [("id", .jstr "3"),
             ("charges", .jlist ([ "Z" ].map .jstr))])])]]) :=
  ⟨wfres_single "Low" "fbi" "1" ["A", "B"] (by decide),
   (merge_responses_assoc _ _ _
      (wfres_single "Low" "fbi" "1" ["A", "B"] (by decide))
      (wfres_single "Dangerous" "fbi" "2" ["B", "C"] (by decide))
      (wfres_single "Medium" "euro" "3" ["Z"] (by decide))).1⟩

/-! ## C4: merged risk is the maximum severity -/

theorem riskOf_shape (r : String) (v : JVal) :
    riskOf [("risk", .jstr r), ("notices", v)] = r := by
  simp [riskOf, lookupKey]

theorem lookup_risk_of_wf {e : Entries} (h : WFRes e) :
    lookupKey e "risk" = some (.jstr (riskOf e)) := by
  obtain ⟨r, ns, rfl, -, -⟩ := h
  rw [riskOf_shape]
  simp [lookupKey]

theorem riskOf_mem_of_wf {e : Entries} (h : WFRes e) :
    riskOf e ∈ RISK_LEVELS := by
  obtain ⟨r, ns, rfl, hr, -⟩ := h
  rw [riskOf_shape]
  exact hr

theorem riskOf_mergeEntries {A B : Entries} (hA : WFRes A) (hB : WFRes B) :
    riskOf (mergeEntries A B) = maxRiskStr (riskOf A) (riskOf B) := by
  obtain ⟨r1, n1, rfl, -, -⟩ := hA
  obtain ⟨r2, n2, rfl, -, -⟩ := hB
  rw [merge_top_shape, riskOf_shape, riskOf_shape, riskOf_shape]

theorem riskIndex_maxRiskStr_left (a b : String) :
    riskIndex a ≤ riskIndex (maxRiskStr a b) := by
  unfold maxRiskStr
  split_ifs with h <;> omega

theorem riskIndex_maxRiskStr_right (a b : String) :
    riskIndex b ≤ riskIndex (maxRiskStr a b) := by
  unfold maxRiskStr
  split_ifs with h <;> omega

theorem foldl_maxRiskStr_mem (l : List String) :
    ∀ r, List.foldl maxRiskStr r l ∈ r :: l := by
  induction l with
  | nil => intro r; simp
  | cons y l' ih =>
      intro r
      rw [List.foldl_cons]
      have h := ih (maxRiskStr r y)
      rcases List.mem_cons.1 h with h' | h'
      · rw [h']
        rcases maxRiskStr_cases r y with hc | hc <;> rw [hc]
        · exact List.mem_cons_self _ _
        · exact List.mem_cons_of_mem _ (List.mem_cons_self _ _)
      · exact List.mem_cons_of_mem _ (List.mem_cons_of_mem _ h')

theorem foldl_maxRiskStr_ge (l : List String) :
    ∀ r, ∀ x ∈ r :: l, riskIndex x ≤ riskIndex (List.foldl maxRiskStr r l) := by
  induction l with
  | nil =>
      intro r x hx
      rcases List.mem_singleton.1 hx with rfl
      exact le_refl _
  | cons y l' ih =>
      intro r x hx
      rw [List.foldl_cons]
      have hhead : riskIndex (maxRiskStr r y) ≤
          riskIndex (List.foldl maxRiskStr (maxRiskStr r y) l') :=
        ih (maxRiskStr r y) _ (List.mem_cons_self _ _)
      rcases List.mem_cons.1 hx with rfl | hx'
      · exact le_trans (riskIndex_maxRiskStr_left _ _) hhead
      · rcases List.mem_cons.1 hx' with rfl | hx''
        · exact le_trans (riskIndex_maxRiskStr_right _ _) hhead
        · exact ih (maxRiskStr r y) x (List.mem_cons_of_mem _ hx'')

theorem riskIndex_inj {a b : String} (ha : a ∈ RISK_LEVELS)
    (hb : b ∈ RISK_LEVELS) (h : riskIndex a = riskIndex b) : a = b := by
  fin_cases ha <;> fin_cases hb <;> revert h <;> decide

theorem merge_fold_risk :
    ∀ (rs : List Entries) (acc : Entries), WFRes acc → (∀ e ∈ rs, WFRes e) →
      WFRes (List.foldl mergeEntries acc rs) ∧
      riskOf (List.foldl mergeEntries acc rs) =
        List.foldl maxRiskStr (riskOf acc) (rs.map riskOf) := by
  intro rs
  induction rs with
  | nil => intro acc hacc _; exact ⟨hacc, rfl⟩
  | cons e rs' ih =>
      intro acc hacc hwf
      have he : WFRes e := hwf e (List.mem_cons_self _ _)
      have hstep : WFRes (mergeEntries acc e) := wfres_mergeEntries hacc he
      have hwf' : ∀ x ∈ rs', WFRes x := fun x hx => hwf x (List.mem_cons_of_mem _ hx)
      rcases ih (mergeEntries acc e) hstep hwf' with ⟨h1, h2⟩
      refine ⟨h1, ?_⟩
      rw [List.foldl_cons, List.map_cons, List.foldl_cons, h2,
        riskOf_mergeEntries hacc he]

theorem merge_risk_core (rs : List Entries) (hne : rs ≠ [])
    (hwf : ∀ e ∈ rs, WFRes e) :
    ∃ m, lookupKey (merge_responses rs) "risk" = some (.jstr m) ∧
      m ∈ rs.map riskOf ∧ m ∈ RISK_LEVELS ∧
      ∀ x ∈ rs.map riskOf, riskIndex x ≤ riskIndex m := by
  obtain ⟨e, rest, rfl⟩ := List.exists_cons_of_ne_nil hne
  have he : WFRes e := hwf e (List.mem_cons_self _ _)
  have hwrest : ∀ x ∈ rest, WFRes x := fun x hx => hwf x (List.mem_cons_of_mem _ hx)
  have hfold : merge_responses (e :: rest) = List.foldl mergeEntries e rest := by
    obtain ⟨r, ns, rfl, -, -⟩ := he
    show List.foldl mergeEntries (mergeEntries [] _) _ = _
    rw [mergeEntries_nil_top]
  rcases merge_fold_risk rest e he hwrest with ⟨hwf', hrisk⟩
  refine ⟨riskOf (List.foldl mergeEntries e rest), ?_, ?_, ?_, ?_⟩
  · rw [hfold]; exact lookup_risk_of_wf hwf'
  · rw [hrisk, List.map_cons]
    exact foldl_maxRiskStr_mem _ _
  · exact riskOf_mem_of_wf hwf'
  · intro x hx
    rw [hrisk]
    rw [List.map_cons] at hx
    exact foldl_maxRiskStr_ge _ _ x hx

/-- C4: for a non-empty list of well-formed PartialResults, the merged
`risk` is the input risk of maximal severity in the `RISK_LEVELS` order,
and it does not depend on the order of the inputs. -/
theorem merge_responses_risk_max (rs : List Entries) (hne : rs ≠ [])
    (hwf : ∀ e ∈ rs, WFRes e) :
    ∃ m, lookupKey (merge_responses rs) "risk" = some (.jstr m) ∧
      m ∈ rs.map riskOf ∧
      (∀ x ∈ rs.map riskOf, riskIndex x ≤ riskIndex m) ∧
      ∀ rs', rs'.Perm rs →
        lookupKey (merge_responses rs') "risk" = some (.jstr m) := by
  rcases merge_risk_core rs hne hwf with ⟨m, hl, hmem, hval, hge⟩
  refine ⟨m, hl, hmem, hge, ?_⟩
  intro rs' hperm
  have hne' : rs' ≠ [] := by
    intro hc
    subst hc
    exact hne hperm.symm.eq_nil
  have hwf' : ∀ e ∈ rs', WFRes e := fun e he => hwf e (hperm.subset he)
  rcases merge_risk_core rs' hne' hwf' with ⟨m', hl', hmem', hval', hge'⟩
  have hpm : (rs'.map riskOf).Perm (rs.map riskOf) := hperm.map _
  have h1 : riskIndex m' ≤ riskIndex m := hge m' (hpm.subset hmem')
  have h2 : riskIndex m ≤ riskIndex m' := hge' m (hpm.symm.subset hmem)
  have : m' = m := riskIndex_inj hval' hval (by omega)
  rw [hl', this]

/-- Witness for C4 at concrete inputs. -/
theorem merge_responses_risk_max_witness :
    (([[("risk", .jstr "Low"),
        ("notices", .jdict [("a", .jdict [("id", .jstr "1"),
           ("charges", .jlist ([ "X" ].map .jstr))])])],
       [("risk", .jstr "Dangerous"),
        ("notices", .jdict [("b", .jdict [("id", .jstr "2"),
           ("charges", .jlist ([ "Y" ].map .jstr))])])]] : List Entries) ≠ []) ∧
    (∃ m, lookupKey (merge_responses
        [[("risk", .jstr "Low"),
          ("notices", .jdict [("a", .jdict [("id", .jstr "1"),
             ("charges", .jlist ([ "X" ].map .jstr))])])],
         [("risk", .jstr "Dangerous"),
          ("notices", .jdict [("b", .jdict [("id", .jstr "2"),
             ("charges", .jlist ([ "Y" ].map .jstr))])])]]) "risk" =
        some (.jstr m) ∧
      m ∈ ([[("risk", .jstr "Low"),
        ("notices", .jdict [("a", .jdict [("id", .jstr "1"),
           ("charges", .jlist ([ "X" ].map .jstr))])])],
       [("risk", .jstr "Dangerous"),
        ("notices", .jdict [("b", .jdict [("id", .jstr "2"),
           ("charges", .jlist ([ "Y" ].map .jstr))])])]] : List Entries).map riskOf ∧
      (∀ x ∈ ([[("risk", .jstr "Low"),
        ("notices", .jdict [("a", .jdict [("id", .jstr "1"),
           ("charges", .jlist ([ "X" ].map .jstr))])])],
       [("risk", .jstr "Dangerous"),
        ("notices", .jdict [("b", .jdict [("id", .jstr "2"),
           ("charges", .jlist ([ "Y" ].map .jstr))])])]] : List Entries).map riskOf,
        riskIndex x ≤ riskIndex m) ∧
      ∀ rs', rs'.Perm
          [[("risk", .jstr "Low"),
            ("notices", .jdict [("a", .jdict [("id", .jstr "1"),
               ("charges", .jlist ([ "X" ].map .jstr))])])],
           [("risk", .jstr "Dangerous"),
            ("notices", .jdict [("b", .jdict [("id", .jstr "2"),
               ("charges", .jlist ([ "Y" ].map .jstr))])])]] →
        lookupKey (merge_responses rs') "risk" = some (.jstr m)) :=
  ⟨by simp,
   merge_responses_risk_max _ (by simp)
     (by
       intro e he
       rcases List.mem_cons.1 he with rfl | he'
       · exact wfres_single "Low" "a" "1" ["X"] (by decide)
       · rcases List.mem_singleton.1 he' with rfl
         exact wfres_single "Dangerous" "b" "2" ["Y"] (by decide))⟩

/-! ## C5: charge lists merge by dedup-preserving concatenation -/

theorem lookupKey_of_not_mem {e : Entries} {k : String} (h : k ∉ keys e) :
    lookupKey e k = none := by
  induction e with
  | nil => rfl
  | cons p e' ih =>
      obtain ⟨k', v⟩ := p
      have hk : k' ≠ k := fun hc => h (by simp [keys, hc])
      rw [lookupKey, if_neg hk]
      exact ih (fun hc => h (by simp [keys] at hc ⊢; tauto))

theorem lookupKey_setKey_self {d : Entries} {k : String} {a : JVal} (v : JVal)
    (h : lookupKey d k = some a) :
    lookupKey (setKey d k v) k = some (mergeVal k a v) := by
  induction d with
  | nil => simp [lookupKey] at h
  | cons p d' ih =>
      obtain ⟨k', w⟩ := p
      by_cases hk : k' = k
      · subst hk
        rw [lookupKey, if_pos rfl] at h
        rcases Option.some_injective _ h with rfl
        rw [setKey, if_pos rfl, lookupKey, if_pos rfl]
      · rw [lookupKey, if_neg hk] at h
        rw [setKey, if_neg hk, lookupKey, if_neg hk]
        exact ih h

theorem lookupKey_setKey_ne {d : Entries} {j k : String} (hjk : j ≠ k)
    (v : JVal) : lookupKey (setKey d j v) k = lookupKey d k := by
  induction d with
  | nil => simp [setKey, lookupKey, if_neg hjk]
  | cons p d' ih =>
      obtain ⟨k', w⟩ := p
      by_cases hk : k' = j
      · subst hk
        rw [setKey, if_pos rfl, lookupKey, if_neg hjk, lookupKey, if_neg hjk]
      · rw [setKey, if_neg hk, lookupKey, lookupKey]
        by_cases hk2 : k' = k
        · rw [if_pos hk2, if_pos hk2]
        · rw [if_neg hk2, if_neg hk2]
          exact ih

theorem lookupKey_mergeEntries_not_mem :
    ∀ {e d : Entries} {k : String}, k ∉ keys e →
      lookupKey (mergeEntries d e) k = lookupKey d k := by
  intro e
  induction e with
  | nil => intro d k _; rw [mergeEntries_nil]
  | cons p e' ih =>
      obtain ⟨j, u⟩ := p
      intro d k hk
      have hjk : j ≠ k := fun hc => hk (by simp [keys, hc])
      have hk' : k ∉ keys e' := fun hc => hk (by simp [keys] at hc ⊢; tauto)
      rw [mergeEntries_cons, ih hk', lookupKey_setKey_ne hjk]

theorem lookupKey_mergeEntries_both :
    ∀ {e d : Entries} {k : String} {a b : JVal}, (keys e).Nodup →
      lookupKey d k = some a → lookupKey e k = some b →
      lookupKey (mergeEntries d e) k = some (mergeVal k a b) := by
  intro e
  induction e with
  | nil => intro d k a b _ _ hb; simp [lookupKey] at hb
  | cons p e' ih =>
      obtain ⟨j, u⟩ := p
      intro d k a b hnd hda hb
      simp only [keys, List.map_cons, List.nodup_cons] at hnd
      obtain ⟨hj, hnd'⟩ := hnd
      by_cases hjk : j = k
      · subst hjk
        rw [lookupKey, if_pos rfl] at hb
        rcases Option.some_injective _ hb with rfl
        rw [mergeEntries_cons, lookupKey_mergeEntries_not_mem hj,
          lookupKey_setKey_self u hda]
      · rw [lookupKey, if_neg hjk] at hb
        rw [mergeEntries_cons]
        exact ih hnd' (by rw [lookupKey_setKey_ne hjk]; exact hda) hb

theorem lookup_notices_shape (r : String) (ns : Entries) :
    lookupKey [("risk", .jstr r), ("notices", .jdict ns)] "notices" =
      some (.jdict ns) := by
  rw [lookupKey, if_neg (by decide), lookupKey, if_pos rfl]

/-- C5: when two well-formed PartialResults share a source key, the merged
notice's charges are the concatenation of the two charge lists with every
later duplicate removed, keeping first occurrences (and the merged `id` is
the later one). -/
theorem merge_responses_charges (P1 P2 ns1 ns2 : Entries) (sk i1 i2 : String)
    (c1 c2 : List JVal) (h1 : WFRes P1) (h2 : WFRes P2)
    (hn1 : lookupKey P1 "notices" = some (.jdict ns1))
    (hn2 : lookupKey P2 "notices" = some (.jdict ns2))
    (hc1 : lookupKey ns1 sk = some (.jdict [("id", .jstr i1), ("charges", .jlist c1)]))
    (hc2 : lookupKey ns2 sk = some (.jdict [("id", .jstr i2), ("charges", .jlist c2)])) :
    ∃ nm, lookupKey (merge_responses [P1, P2]) "notices" = some (.jdict nm) ∧
      lookupKey nm sk =
        some (.jdict [("id", .jstr i2),
                      ("charges", .jlist (dedupFirst (c1 ++ c2)))]) := by
  obtain ⟨r1, m1, rfl, hr1, hg1⟩ := h1
  obtain ⟨r2, m2, rfl, hr2, hg2⟩ := h2
  rw [lookup_notices_shape] at hn1 hn2
  rcases Option.some_injective _ hn1 with hn1'
  rcases Option.some_injective _ hn2 with hn2'
  have hm1 : m1 = ns1 := by injection hn1'
  have hm2 : m2 = ns2 := by injection hn2'
  subst hm1
  subst hm2
  rw [merge_responses_two ⟨r1, m1, rfl, hr1, hg1⟩]
  rw [merge_top_shape]
  refine ⟨mergeEntries m1 m2, lookup_notices_shape _ _, ?_⟩
  rw [lookupKey_mergeEntries_both hg2.1 hc1 hc2, mergeVal_notice_shape,
    preserve_order_dedup_eq_dedupFirst]

/-- Witness for C5: merging charges `["A","B"]` with `["B","C"]` under a
shared source key yields `["A","B","C"]`. -/
theorem merge_responses_charges_witness :
    WFRes [("risk", .jstr "Low"),
           ("notices", .jdict [("fbi", .jdict [("id", .jstr "1"),
              ("charges", .jlist ([ "A", "B" ].map .jstr))])])] ∧
    dedupFirst ([ "A", "B" ].map .jstr ++ [ "B", "C" ].map .jstr) =
      [ "A", "B", "C" ].map JVal.jstr ∧
    (∃ nm, lookupKey (merge_responses
        [[("risk", .jstr "Low"),
          ("notices", .jdict [("fbi", .jdict [("id", .jstr "1"),
             ("charges", .jlist ([ "A", "B" ].map .jstr))])])],
         [("risk", .jstr "High"),
          ("notices", .jdict [("fbi", .jdict [("id", .jstr "2"),
             ("charges", .jlist ([ "B", "C" ].map .jstr))])])]]) "notices" =
        some (.jdict nm) ∧
      lookupKey nm "fbi" =
        some (.jdict [("id", .jstr "2"),
          ("charges", .jlist (dedupFirst
            ([ "A", "B" ].map .jstr ++ [ "B", "C" ].map .jstr)))])) :=
  ⟨wfres_single "Low" "fbi" "1" ["A", "B"] (by decide),
   by decide,
   merge_responses_charges _ _
     [("fbi", .jdict [("id", .jstr "1"),
        ("charges", .jlist ([ "A", "B" ].map .jstr))])]
     [("fbi", .jdict [("id", .jstr "2"),
        ("charges", .jlist ([ "B", "C" ].map .jstr))])]
     "fbi" "1" "2" ([ "A", "B" ].map .jstr) ([ "B", "C" ].map .jstr)
     (wfres_single "Low" "fbi" "1" ["A", "B"] (by decide))
     (wfres_single "High" "fbi" "2" ["B", "C"] (by decide))
     (by decide) (by decide) (by decide) (by decide)⟩

/-! ## C9: validated construction -/

theorem gen_response_ok {risk : String} (hmem : risk ∈ RISK_LEVELS)
    (source notice_id : String) (charges : ChargesArg) :
    gen_response risk source notice_id charges =
      .ok [("risk", .jstr risk),
           ("notices", .jdict [(source, .jdict [("id", .jstr notice_id),
              ("charges", .jlist ((wrapCharges charges).map .jstr))])])] := by
  cases charges <;> simp [gen_response, wrapCharges, hmem]

theorem gen_response_err {risk : String} (hmem : risk ∉ RISK_LEVELS)
    (source notice_id : String) (charges : ChargesArg) :
    gen_response risk source notice_id charges =
      .error ("The supplied risk is invalid: " ++ risk
        ++ ".\nPlease use one of these: "
        ++ String.intercalate ", " RISK_LEVELS ++ ".") := by
  cases charges <;> simp [gen_response, hmem]

/-- C9: `gen_response` raises `ValueError` exactly when the risk is not one
of the four `RISK_LEVELS`; otherwise it returns the response dict, with a
plain-string charges argument wrapped into a one-element list. -/
theorem gen_response_spec (risk source notice_id : String)
    (charges : ChargesArg) :
    ((∃ msg, gen_response risk source notice_id charges = .error msg) ↔
      risk ∉ RISK_LEVELS) ∧
    (risk ∈ RISK_LEVELS →
      gen_response risk source notice_id charges =
        .ok [("risk", .jstr risk),
             ("notices", .jdict [(source, .jdict [("id", .jstr notice_id),
                ("charges", .jlist ((wrapCharges charges).map .jstr))])])]) := by
  constructor
  · constructor
    · rintro ⟨msg, hmsg⟩ hmem
      rw [gen_response_ok hmem] at hmsg
      cases hmsg
    · intro hmem
      exact ⟨_, gen_response_err hmem source notice_id charges⟩
  · intro hmem
    exact gen_response_ok hmem source notice_id charges

/-- Witness for C9: a valid and an invalid construction. -/
theorem gen_response_spec_witness :
    ("High" ∈ RISK_LEVELS ∧
      gen_response "High" "fbi" "1" (.one "Fraud") =
        .ok [("risk", .jstr "High"),
             ("notices", .jdict [("fbi", .jdict [("id", .jstr "1"),
                ("charges", .jlist ((wrapCharges (.one "Fraud")).map .jstr))])])]) ∧
    ((∃ msg, gen_response "Critical" "fbi" "1" (.one "Fraud") = .error msg) ↔
      "Critical" ∉ RISK_LEVELS) :=
  ⟨⟨by decide,
    (gen_response_spec "High" "fbi" "1" (.one "Fraud")).2 (by decide)⟩,
   (gen_response_spec "Critical" "fbi" "1" (.one "Fraud")).1⟩

/-! ## C6 and C7: the cache -/

/-- C6 counterexample: an entry aged 5 days + 1 second has exceeded the
5-day staleness window, yet `load_cache` still serves it and does not
delete it (`int((now - ts)/86400)` truncates 5.00001 to 5, which is not
`> CACHE_MAX_DAYS`). -/
theorem load_cache_counterexample :
    ((432001 : Int) - 0 > CACHE_MAX_DAYS * 86400) ∧
    load_cache_file (some ⟨0, [.jstr "d"]⟩) 432001 ≠ (none, true) ∧
    load_cache_file (some ⟨0, [.jstr "d"]⟩) 432001 = (some [.jstr "d"], false) := by
  refine ⟨by decide, ?_, ?_⟩ <;> decide

/-- C6 amended: `load_cache` treats an entry as stale — returning absent
and deleting the file — exactly when the truncated whole-day age
`int((now - createdAt)/86400)` exceeds `CACHE_MAX_DAYS` (5), i.e. from six
days onward. -/
theorem load_cache_stale_evicts (c : CacheFile) (now : Int)
    (h : pyDayTrunc (now - c.timestamp) > CACHE_MAX_DAYS) :
    load_cache_file (some c) now = (none, true) := by
  simp [load_cache_file, h]

/-- Witness for the amended C6 at six days of age. -/
theorem load_cache_stale_evicts_witness :
    pyDayTrunc ((518400 : Int) - 0) > CACHE_MAX_DAYS ∧
    load_cache_file (some ⟨0, [.jstr "d"]⟩) 518400 = (none, true) :=
  ⟨by decide, load_cache_stale_evicts ⟨0, [.jstr "d"]⟩ 518400 (by decide)⟩

/-- C7: a successful `store_cache` followed by `load_cache` within the
staleness window returns the stored data unchanged (and deletes nothing). -/
theorem cache_round_trip (dir : CacheDir) (fp : String) (data : List JVal)
    (t now : Int) (h : pyDayTrunc (now - t) ≤ CACHE_MAX_DAYS) :
    load_cache_file (store_cache dir fp data t fp) now = (some data, false) := by
  unfold store_cache
  rw [if_pos rfl]
  simp [load_cache_file]
  omega

/-- Witness for C7 with an immediate read-back. -/
theorem cache_round_trip_witness :
    pyDayTrunc ((0 : Int) - 0) ≤ CACHE_MAX_DAYS ∧
    load_cache_file (store_cache (fun _ => none) "q" [.jstr "d"] 0 "q") 0 =
      (some [.jstr "d"], false) :=
  ⟨by decide, cache_round_trip (fun _ => none) "q" [.jstr "d"] 0 0 (by decide)⟩

/-! ## C2: the in-flight registry entry on exit paths -/

/-- C2: `perform_search` removes the fingerprint on both normal return
paths, but when `execute_search` raises (e.g. `--threads 0` makes
`ThreadPoolExecutor(max_workers=0)` raise `ValueError`), the exception
propagates before `remove_running` and the fingerprint stays registered —
the source has no `try/finally` around the body. -/
theorem perform_search_registry_leak :
    (perform_search "fp" true 0 (.ok []) .ok ⟨[], fun _ => none⟩).2.running = [] ∧
    (perform_search "fp" true 0 (.error ()) .ok ⟨[], fun _ => none⟩).1 = .exn ∧
    (perform_search "fp" true 0 (.error ()) .ok ⟨[], fun _ => none⟩).2.running
      = ["fp"] :=
  ⟨rfl, rfl, rfl⟩

/-! ## C3: merge is not pure — it mutates its first input

Object graph for
`A = {"risk": "Low", "notices": {"a": {"id": "1", "charges": ["X"]}}}` at
address 5 and
`B = {"risk": "High", "notices": {"b": {"id": "2", "charges": ["Y"]}}}` at
address 11. -/
def aliasedHeap : Heap :=
  [.pstr "Low",                          -- 0
   .pstr "1",                            -- 1
   .plist ["X"],                         -- 2
   .pdict [("id", 1), ("charges", 2)],   -- 3: the notice under "a"
   .pdict [("a", 3)],                    -- 4: A's notices dict
   .pdict [("risk", 0), ("notices", 4)], -- 5: A
   .pstr "High",                         -- 6
   .pstr "2",                            -- 7
   .plist ["Y"],                         -- 8
   .pdict [("id", 7), ("charges", 8)],   -- 9: the notice under "b"
   .pdict [("b", 9)],                    -- 10: B's notices dict
   .pdict [("risk", 6), ("notices", 10)]] -- 11: B

/-- C3 refutation: `merge_responses([A, B])` mutates `A` in place — the
accumulator `merged_dict` aliases `A`'s notices dict, so merging `B` adds
the key `"b"` to `A`'s own notices object (address 4), while `B`'s objects
are untouched and the returned value is the expected merge. -/
theorem merge_responses_mutates_input :
    heapGet aliasedHeap 4 = .pdict [("a", 3)] ∧
    heapGet (merge_responses_heap 20 aliasedHeap [5, 11]).1 4 =
      .pdict [("a", 3), ("b", 9)] ∧
    heapGet (merge_responses_heap 20 aliasedHeap [5, 11]).1
        (merge_responses_heap 20 aliasedHeap [5, 11]).2 =
      .pdict [("risk", 6), ("notices", 4)] ∧
    heapGet (merge_responses_heap 20 aliasedHeap [5, 11]).1 10 =
      heapGet aliasedHeap 10 :=
  ⟨rfl, rfl, rfl, rfl⟩

/-! ## C8: failure isolation in `execute_search` -/

theorem execute_search_acc (tasks : List STask) :
    ∀ acc, execute_search acc tasks = acc ++ successfulResults tasks := by
  induction tasks with
  | nil =>
      intro acc
      simp [execute_search, successfulResults]
  | cons t ts ih =>
      intro acc
      obtain ⟨c, o⟩ := t
      cases c with
      | false =>
          show execute_search acc ts = _
          rw [ih]
          simp [successfulResults, List.filterMap_cons]
      | true =>
          cases o with
          | error e =>
              show execute_search acc ts = _
              rw [ih]
              simp [successfulResults, List.filterMap_cons]
          | ok vo =>
              cases vo with
              | none =>
                  show execute_search acc ts = _
                  rw [ih]
                  simp [successfulResults, List.filterMap_cons]
              | some v =>
                  show execute_search (if truthy v then acc ++ [v] else acc) ts = _
                  by_cases hv : truthy v
                  · rw [if_pos hv, ih]
                    simp [successfulResults, List.filterMap_cons, hv]
                  · rw [if_neg hv, ih]
                    simp [successfulResults, List.filterMap_cons, hv]

/-- C8: `execute_search` never propagates a unit's failure (raised
exceptions — including `InvalidResponseError` and `CaptchaError` — are
caught, timed-out units only logged), and the collected results are exactly
the truthy values of the units that completed successfully within the
timeout; removing a failed or timed-out unit from the batch leaves the
collected results unchanged. -/
theorem execute_search_isolates :
    (∀ tasks : List STask, execute_search [] tasks = successfulResults tasks) ∧
    (∀ (ts1 ts2 : List STask) (t : STask),
      t.completed = false ∨ t.outcome = .error () →
      execute_search [] (ts1 ++ t :: ts2) = execute_search [] (ts1 ++ ts2)) := by
  have hmain : ∀ tasks : List STask,
      execute_search [] tasks = successfulResults tasks := by
    intro tasks
    rw [execute_search_acc tasks []]
    rfl
  refine ⟨hmain, ?_⟩
  intro ts1 ts2 t ht
  rw [hmain, hmain]
  unfold successfulResults
  rw [List.filterMap_append, List.filterMap_append, List.filterMap_cons]
  obtain ⟨c, o⟩ := t
  rcases ht with hc | ho
  · simp only at hc
    subst hc
    rcases o with e | vo
    · rfl
    · rcases vo with _ | v <;> rfl
  · simp only at ho
    subst ho
    cases c <;> rfl

/-- Witness for C8: one successful unit, one raising unit, one timed-out
unit. -/
theorem execute_search_isolates_witness :
    ((⟨true, .error ()⟩ : STask).completed = false ∨
      (⟨true, .error ()⟩ : STask).outcome = .error ()) ∧
    execute_search []
        ([⟨true, .ok (some (.jdict [("risk", .jstr "High")]))⟩] ++
          (⟨true, .error ()⟩ : STask) :: [⟨false, .ok (some (.jstr "late"))⟩]) =
      execute_search []
        ([⟨true, .ok (some (.jdict [("risk", .jstr "High")]))⟩] ++
          [⟨false, .ok (some (.jstr "late"))⟩]) :=
  ⟨Or.inr rfl,
   execute_search_isolates.2 _ _ _ (Or.inr rfl)⟩

/-! ## C10: an empty cached result is never served as cached -/

theorem lookup_gen_results_status {status : String} (data : List JVal)
    (h : status ∈ ["fresh", "cached", "error"]) :
    lookupKey (gen_results status data) "status" = some (.jstr status) := by
  rw [gen_results, if_pos h, lookupKey, if_pos rfl]

/-- C10: a cache entry holding an empty list is treated as a miss —
`perform_search` runs the search and answers `"fresh"` — and, on every
input whatsoever, a returned response with status `"cached"` carries a
non-empty data list. -/
theorem perform_search_empty_cache_fresh :
    (∀ (fp : String) (now : Int) (c : CacheFile) (results : List JVal)
        (st : SearchState),
      st.cacheDir fp = some c → c.data = [] →
      (perform_search fp true now (.ok results) .ok st).1 =
        .ret (gen_results "fresh" results)) ∧
    (∀ (fp : String) (useCache : Bool) (now : Int)
        (eo : Except Unit (List JVal)) (so : StoreOutcome) (st : SearchState)
        (r : Entries),
      (perform_search fp useCache now eo so st).1 = .ret r →
      lookupKey r "status" = some (.jstr "cached") →
      ∃ d, lookupKey r "data" = some (.jlist d) ∧ d ≠ []) := by
  have hfreshOnly : ∀ (fp : String) (useCache : Bool) (now : Int)
      (eo : Except Unit (List JVal)) (so : StoreOutcome) (st2 : SearchState)
      (r : Entries),
      (run_fresh_search fp useCache now eo so st2).1 = .ret r →
      ∃ results, r = gen_results "fresh" results := by
    intro fp useCache now eo so st2 r hr
    unfold run_fresh_search at hr
    rcases eo with e | results
    · cases hr
    · refine ⟨results, ?_⟩
      rcases useCache with _ | _
      · simp at hr
        exact hr.symm
      · rcases so with _ | _ | _
        · simp at hr
          exact hr.symm
        · simp at hr
          exact hr.symm
        · simp at hr
  have hdispatch : ∀ (fp : String) (useCache : Bool) (now : Int)
      (eo : Except Unit (List JVal)) (so : StoreOutcome)
      (dataOpt : Option (List JVal)) (st2 : SearchState) (r : Entries),
      (cached_or_fresh fp useCache now eo so dataOpt st2).1 = .ret r →
      (∃ cache, cache.isEmpty = false ∧ r = gen_results "cached" cache) ∨
      (∃ results, r = gen_results "fresh" results) := by
    intro fp useCache now eo so dataOpt st2 r hr
    rcases dataOpt with _ | cache
    · exact Or.inr (hfreshOnly fp useCache now eo so st2 r hr)
    · have hr2 : (if cache.isEmpty then run_fresh_search fp useCache now eo so st2
          else (PSOutcome.ret (gen_results "cached" cache), remove_running st2 fp)).1
          = PSOutcome.ret r := hr
      by_cases hempty : cache.isEmpty
      · rw [if_pos hempty] at hr2
        exact Or.inr (hfreshOnly fp useCache now eo so st2 r hr2)
      · rw [if_neg hempty] at hr2
        simp only at hr2
        refine Or.inl ⟨cache, by simpa using hempty, ?_⟩
        injection hr2 with h1
        exact h1.symm
  constructor
  · intro fp now c results st hc hdata
    unfold perform_search
    simp only [add_running]
    rw [hc]
    unfold load_cache_file
    by_cases hstale : pyDayTrunc (now - c.timestamp) > CACHE_MAX_DAYS
    · simp [hstale, cached_or_fresh, run_fresh_search]
    · simp [hstale, hdata, cached_or_fresh, run_fresh_search]
  · intro fp useCache now eo so st r hret hstatus
    have hret' : (cached_or_fresh fp useCache now eo so
        (if useCache then
          ((load_cache_file ((add_running st fp).cacheDir fp) now).1,
           if (load_cache_file ((add_running st fp).cacheDir fp) now).2 then
             { add_running st fp with
                cacheDir := remove_file (add_running st fp).cacheDir fp }
           else add_running st fp)
         else (none, add_running st fp)).1
        (if useCache then
          ((load_cache_file ((add_running st fp).cacheDir fp) now).1,
           if (load_cache_file ((add_running st fp).cacheDir fp) now).2 then
             { add_running st fp with
                cacheDir := remove_file (add_running st fp).cacheDir fp }
           else add_running st fp)
         else (none, add_running st fp)).2).1 = .ret r := hret
    rcases hdispatch _ _ _ _ _ _ _ _ hret' with ⟨cache, hne, hr'⟩ | ⟨results, hr'⟩
    · refine ⟨cache, ?_, ?_⟩
      · rw [hr', gen_results, if_pos (by simp), lookupKey,
          if_neg (by decide), lookupKey, if_pos rfl]
      · intro hnil
        subst hnil
        simp at hne
    · rw [hr', lookup_gen_results_status results (by simp)] at hstatus
      have h2 := Option.some_injective _ hstatus
      have h3 : "fresh" = "cached" := by injection h2
      exact absurd h3 (by decide)


/-- Witness for C10: an empty cached entry answered `"fresh"`, and a
non-empty cached entry whose `"cached"` response indeed carries non-empty
data. -/
theorem perform_search_empty_cache_fresh_witness :
    ((fun k => if k = "q" then some (⟨0, []⟩ : CacheFile) else none) "q" =
        some (⟨0, []⟩ : CacheFile) ∧
      (perform_search "q" true 0 (.ok [.jstr "r"]) .ok
          ⟨[], fun k => if k = "q" then some ⟨0, []⟩ else none⟩).1 =
        .ret (gen_results "fresh" [.jstr "r"])) ∧
    ((perform_search "q" true 0 (.ok []) .ok
          ⟨[], fun k => if k = "q" then some ⟨0, [.jstr "d"]⟩ else none⟩).1 =
        .ret (gen_results "cached" [.jstr "d"]) ∧
      ∃ d, lookupKey (gen_results "cached" [.jstr "d"]) "data" =
          some (.jlist d) ∧ d ≠ []) :=
  ⟨⟨rfl,
    perform_search_empty_cache_fresh.1 "q" 0 ⟨0, []⟩ [.jstr "r"]
      ⟨[], fun k => if k = "q" then some ⟨0, []⟩ else none⟩ rfl rfl⟩,
   ⟨rfl,
    perform_search_empty_cache_fresh.2 "q" true 0 (.ok []) .ok
      ⟨[], fun k => if k = "q" then some ⟨0, [.jstr "d"]⟩ else none⟩
      (gen_results "cached" [.jstr "d"]) rfl rfl⟩⟩

end CrimeScrape
